import Mathlib

/-!
Verification development for the opening-book core of `en-croissant`
(`src-tauri/src/opening.rs`).

The file embeds the Rust module shallowly in Lean:

* The chess engine (the `shakmaty` crate: positions, SAN, legality, FEN)
  is external to the repository; it is modelled from the spec, §6
  "Position Engine contract" and the glossary (standard chess).
* The similarity metric (the `strsim` crate's `jaro_winkler`) is also
  external; it is modelled from the spec, §4.4 (a Jaro-Winkler metric in
  the closed range [0, 1]).  Floating-point scores are modelled as
  rationals; an `Option`-valued variant `jaro_winklerF` tracks the
  not-a-number cases that `f64` division could produce.
* Everything in `opening.rs` itself (record replay, the `OPENINGS`
  construction, the three lookup commands and `search_opening_name`)
  is translated from the source.  A Rust `panic!`/`expect` is modelled
  by an `Option`-valued result, `none` meaning the panic.
-/

set_option linter.unusedVariables false

namespace EnCroissant

/-! ### Spec-modelled chess engine (external `shakmaty` crate)

Modelled from the spec: the Position Engine is an external collaborator
(§6): it parses position notation, applies a move, and exposes structural
equality of positions.  Squares are indexed `rank * 8 + file` with `a1 = 0`.
-/

inductive Color : Type
  | white
  | black
deriving DecidableEq, Repr

def Color.other : Color → Color
  | .white => .black
  | .black => .white

inductive Role : Type
  | pawn
  | knight
  | bishop
  | rook
  | queen
  | king
deriving DecidableEq, Repr

structure Piece where
  color : Color
  role : Role
deriving DecidableEq, Repr

abbrev Board := List (Option Piece)

def boardGet (b : Board) (s : Nat) : Option Piece := b.getD s none

def boardSet (b : Board) (s : Nat) (p : Option Piece) : Board := b.set s p

def fileOf (s : Nat) : Nat := s % 8

def rankOf (s : Nat) : Nat := s / 8

/-- Modelled from the spec: a position as the engine serializes it —
piece placement, side to move, castling rights (rook squares), en-passant
target, halfmove clock and fullmove number (shakmaty's `Setup`). -/
structure Setup where
  board : Board
  turn : Color
  castling : List Nat
  ep : Option Nat
  halfmoves : Nat
  fullmoves : Nat
deriving DecidableEq, Repr

def backRow : List Role := [.rook, .knight, .bishop, .queen, .king, .bishop, .knight, .rook]

def startBoard : Board :=
  (backRow.map fun r => some ⟨.white, r⟩) ++ List.replicate 8 (some ⟨.white, .pawn⟩)
    ++ List.replicate 32 none
    ++ List.replicate 8 (some ⟨.black, .pawn⟩) ++ (backRow.map fun r => some ⟨.black, r⟩)

/-- The standard starting position (`Setup::default()`). -/
def defaultSetup : Setup := ⟨startBoard, .white, [0, 7, 56, 63], none, 0, 1⟩

/-- A board with no pieces (`Setup::empty()`). -/
def emptySetup : Setup := ⟨List.replicate 64 none, .white, [], none, 0, 1⟩

def pathClear (b : Board) (src dst : Nat) : Bool :=
  let df : Int := (fileOf dst : Int) - (fileOf src : Int)
  let dr : Int := (rankOf dst : Int) - (rankOf src : Int)
  let n := max df.natAbs dr.natAbs
  (List.range (n - 1)).all fun k =>
    let f := (fileOf src : Int) + df.sign * ((k : Int) + 1)
    let r := (rankOf src : Int) + dr.sign * ((k : Int) + 1)
    (boardGet b (r.toNat * 8 + f.toNat)).isNone

def attacks (b : Board) (p : Piece) (src dst : Nat) : Bool :=
  let df := ((fileOf dst : Int) - (fileOf src : Int)).natAbs
  let dr := ((rankOf dst : Int) - (rankOf src : Int)).natAbs
  let fwd : Int := (rankOf dst : Int) - (rankOf src : Int)
  decide (src ≠ dst) &&
    match p.role with
    | .pawn => decide (df = 1 ∧ fwd = if p.color = .white then (1 : Int) else -1)
    | .knight => decide ((df = 1 ∧ dr = 2) ∨ (df = 2 ∧ dr = 1))
    | .bishop => decide (df = dr) && pathClear b src dst
    | .rook => decide (df = 0 ∨ dr = 0) && pathClear b src dst
    | .queen => decide (df = dr ∨ df = 0 ∨ dr = 0) && pathClear b src dst
    | .king => decide (df ≤ 1 ∧ dr ≤ 1)

def attackedBy (b : Board) (c : Color) (dst : Nat) : Bool :=
  (List.range 64).any fun s =>
    match boardGet b s with
    | some p => decide (p.color = c) && attacks b p s dst
    | none => false

def kingSquare (b : Board) (c : Color) : Option Nat :=
  (List.range 64).find? fun s => decide (boardGet b s = some ⟨c, .king⟩)

def pawnDir (c : Color) : Int := if c = .white then 1 else -1

def movePatternOk (st : Setup) (p : Piece) (src dst : Nat) : Bool :=
  match p.role with
  | .pawn =>
    let fwd := pawnDir p.color
    let df := ((fileOf dst : Int) - (fileOf src : Int)).natAbs
    let dr : Int := (rankOf dst : Int) - (rankOf src : Int)
    let dstP := boardGet st.board dst
    if df = 0 then
      (decide (dr = fwd) && dstP.isNone) ||
        (decide (dr = 2 * fwd) && dstP.isNone &&
          (boardGet st.board (((rankOf src : Int) + fwd).toNat * 8 + fileOf src)).isNone &&
          decide (rankOf src = if p.color = .white then 1 else 6))
    else
      decide (df = 1 ∧ dr = fwd) && (dstP.isSome || decide (st.ep = some dst))
  | _ => attacks st.board p src dst

def lastRank (c : Color) : Nat := if c = .white then 7 else 0

def promoOk (p : Piece) (dst : Nat) (promo : Option Role) : Bool :=
  if p.role = .pawn ∧ rankOf dst = lastRank p.color then
    match promo with
    | some r => decide (r ≠ .pawn ∧ r ≠ .king)
    | none => false
  else decide (promo = none)

def applyNormalBoard (st : Setup) (src dst : Nat) (promo : Option Role) : Board :=
  match boardGet st.board src with
  | none => st.board
  | some p =>
    let isEp := p.role = .pawn ∧ st.ep = some dst ∧ (boardGet st.board dst).isNone
    let capSq : Nat := if p.color = .white then dst - 8 else dst + 8
    let b1 := if isEp then boardSet st.board capSq none else st.board
    let moved : Piece :=
      match promo with
      | some r => ⟨p.color, r⟩
      | none => p
    boardSet (boardSet b1 src none) dst (some moved)

/-- Modelled from the spec: `applyMove`-side legality of a normal
(non-castling) move — movement pattern, destination not occupied by a
friendly piece, promotion consistency, and the mover's king not left in
check. -/
def legalNormal (st : Setup) (src dst : Nat) (promo : Option Role) : Bool :=
  decide (src < 64 ∧ dst < 64) &&
    match boardGet st.board src with
    | none => false
    | some p =>
      decide (p.color = st.turn) &&
        (match boardGet st.board dst with
         | some q => decide (q.color ≠ p.color)
         | none => true) &&
        movePatternOk st p src dst &&
        promoOk p dst promo &&
        (let b' := applyNormalBoard st src dst promo
         match kingSquare b' st.turn with
         | some k => !(attackedBy b' st.turn.other k)
         | none => true)

def legalCastle (st : Setup) (kingside : Bool) : Bool :=
  let r := if st.turn = .white then 0 else 7
  let ksq := r * 8 + 4
  let rsq := r * 8 + if kingside then 7 else 0
  let empties := if kingside then [r * 8 + 5, r * 8 + 6] else [r * 8 + 1, r * 8 + 2, r * 8 + 3]
  let safe := if kingside then [ksq, r * 8 + 5, r * 8 + 6] else [ksq, r * 8 + 3, r * 8 + 2]
  decide (rsq ∈ st.castling) &&
    decide (boardGet st.board ksq = some ⟨st.turn, .king⟩) &&
    decide (boardGet st.board rsq = some ⟨st.turn, .rook⟩) &&
    empties.all (fun s => (boardGet st.board s).isNone) &&
    safe.all (fun s => !(attackedBy st.board st.turn.other s))

inductive Mv : Type
  | normal (src dst : Nat) (promo : Option Role)
  | castle (kingside : Bool)
deriving DecidableEq, Repr

/-- Modelled from the spec: `applyMove` — play a move on a position
(shakmaty `play_unchecked`), updating board, turn, castling rights,
en-passant target, halfmove clock and fullmove number. -/
def applyMv (st : Setup) (m : Mv) : Setup :=
  match m with
  | .normal src dst promo =>
    match boardGet st.board src with
    | none => st
    | some p =>
      let isPawn := p.role = .pawn
      let isCapture := (boardGet st.board dst).isSome ∨ (isPawn ∧ st.ep = some dst)
      let b' := applyNormalBoard st src dst promo
      let newEp : Option Nat :=
        if isPawn ∧ ((rankOf dst : Int) - (rankOf src : Int)).natAbs = 2 then
          some ((src + dst) / 2)
        else none
      let newCastling := st.castling.filter fun cs =>
        decide (cs ≠ src ∧ cs ≠ dst ∧ ¬(p.role = .king ∧ rankOf cs = rankOf src))
      { board := b', turn := st.turn.other, castling := newCastling, ep := newEp,
        halfmoves := if isPawn ∨ isCapture then 0 else st.halfmoves + 1,
        fullmoves := if st.turn = .black then st.fullmoves + 1 else st.fullmoves }
  | .castle kingside =>
    let r := if st.turn = .white then 0 else 7
    let ksq := r * 8 + 4
    let rsq := r * 8 + if kingside then 7 else 0
    let kdst := r * 8 + if kingside then 6 else 2
    let rdst := r * 8 + if kingside then 5 else 3
    let b1 := boardSet (boardSet st.board ksq none) rsq none
    let b2 := boardSet (boardSet b1 kdst (some ⟨st.turn, .king⟩)) rdst (some ⟨st.turn, .rook⟩)
    let newCastling := st.castling.filter fun cs => decide (rankOf cs ≠ r)
    { board := b2, turn := st.turn.other, castling := newCastling, ep := none,
      halfmoves := st.halfmoves + 1,
      fullmoves := if st.turn = .black then st.fullmoves + 1 else st.fullmoves }

/-- Modelled from the spec: the engine reports the en-passant square only
when an en-passant capture is actually legal (shakmaty
`EnPassantMode::Legal`). -/
def epLegalSquare (st : Setup) : Option Nat :=
  match st.ep with
  | none => none
  | some e =>
    if (List.range 64).any fun s =>
        (match boardGet st.board s with
         | some p => decide (p.color = st.turn ∧ p.role = .pawn)
         | none => false) && legalNormal st s e none
    then some e
    else none

/-- `pos.into_setup(EnPassantMode::Legal)`. -/
def intoSetup (st : Setup) : Setup := { st with ep := epLegalSquare st }

/-! ### Spec-modelled standard algebraic notation (shakmaty `San`) -/

structure San where
  role : Role
  fromFile : Option Nat
  fromRank : Option Nat
  capture : Bool
  dest : Nat
  promotion : Option Role
deriving DecidableEq, Repr

inductive SanToken : Type
  | castle (kingside : Bool)
  | normal (san : San)
deriving DecidableEq, Repr

def charFile (c : Char) : Option Nat :=
  if 'a' ≤ c ∧ c ≤ 'h' then some (c.toNat - 'a'.toNat) else none

def charRank (c : Char) : Option Nat :=
  if '1' ≤ c ∧ c ≤ '8' then some (c.toNat - '1'.toNat) else none

def charRole (c : Char) : Option Role :=
  if c = 'K' then some .king
  else if c = 'Q' then some .queen
  else if c = 'R' then some .rook
  else if c = 'B' then some .bishop
  else if c = 'N' then some .knight
  else none

def parseDisambig : List Char → Option (Option Nat × Option Nat × Bool)
  | [] => some (none, none, false)
  | ['x'] => some (none, none, true)
  | [c] =>
    match charFile c, charRank c with
    | some f, _ => some (some f, none, false)
    | none, some r => some (none, some r, false)
    | none, none => none
  | [c, 'x'] =>
    match charFile c, charRank c with
    | some f, _ => some (some f, none, true)
    | none, some r => some (none, some r, true)
    | none, none => none
  | [c1, c2] =>
    match charFile c1, charRank c2 with
    | some f, some r => some (some f, some r, false)
    | _, _ => none
  | [c1, c2, 'x'] =>
    match charFile c1, charRank c2 with
    | some f, some r => some (some f, some r, true)
    | _, _ => none
  | _ => none

def parseSanCore (cs : List Char) : Option SanToken :=
  if cs = ['O', '-', 'O'] ∨ cs = ['0', '-', '0'] then some (.castle true)
  else if cs = ['O', '-', 'O', '-', 'O'] ∨ cs = ['0', '-', '0', '-', '0'] then
    some (.castle false)
  else
    let rp : Role × List Char :=
      match cs with
      | c :: rest' =>
        match charRole c with
        | some r => (r, rest')
        | none => (Role.pawn, cs)
      | [] => (Role.pawn, [])
    let rest := rp.2
    let pb : Option Role × List Char :=
      match rest.reverse with
      | pc :: '=' :: tl =>
        match charRole pc with
        | some r => (some r, tl.reverse)
        | none => (none, rest)
      | _ => (none, rest)
    match pb.2.reverse with
    | rc :: fc :: front =>
      match charFile fc, charRank rc with
      | some f, some r =>
        match parseDisambig front.reverse with
        | some (ff, fr, cap) => some (.normal ⟨rp.1, ff, fr, cap, r * 8 + f, pb.1⟩)
        | none => none
      | _, _ => none
    | _ => none

/-- Modelled from the spec: parsing one whitespace-separated move token in
standard algebraic notation (`token.parse::<San>()`), with an optional
trailing check or mate sign. -/
def parseSan (s : String) : Option SanToken :=
  let cs := s.data
  let cs' :=
    match cs.getLast? with
    | some '+' => cs.dropLast
    | some '#' => cs.dropLast
    | _ => cs
  parseSanCore cs'

def isCaptureMove (st : Setup) (src dst : Nat) : Bool :=
  (boardGet st.board dst).isSome ||
    (match boardGet st.board src with
     | some p => decide (p.role = .pawn ∧ st.ep = some dst)
     | none => false)

def sanCandidates (st : Setup) (tk : SanToken) : List Mv :=
  match tk with
  | .castle ks => if legalCastle st ks then [.castle ks] else []
  | .normal san =>
    (List.range 64).filterMap fun src =>
      match boardGet st.board src with
      | some p =>
        if decide (p.color = st.turn ∧ p.role = san.role) &&
            (match san.fromFile with
             | some f => decide (fileOf src = f)
             | none => true) &&
            (match san.fromRank with
             | some r => decide (rankOf src = r)
             | none => true) &&
            legalNormal st src san.dest san.promotion &&
            (isCaptureMove st src san.dest == san.capture)
        then some (.normal src san.dest san.promotion)
        else none
      | none => none

/-- Modelled from the spec: `san.to_move(&pos)` — the unique legal move a
SAN token denotes in a position, `none` when the token is illegal there
(or ambiguous). -/
def sanToMove (st : Setup) (tk : SanToken) : Option Mv :=
  match sanCandidates st tk with
  | [m] => some m
  | _ => none

/-! ### Record replay (translated from `opening.rs`, the `OPENINGS` loop) -/

/-- The per-record token loop of the `OPENINGS` initializer: a token that
fails to parse as SAN is skipped; a token whose SAN has no legal move
hits `.expect("legal move")`, i.e. panics — modelled as `none`. -/
def replayTokens : Setup → List String → Option Setup
  | st, [] => some st
  | st, t :: ts =>
    match parseSan t with
    | none => replayTokens st ts
    | some tk =>
      match sanToMove st tk with
      | some m => replayTokens (applyMv st m) ts
      | none => none

def splitWsAux : List Char → List Char → List String
  | [], acc => if acc = [] then [] else [String.mk acc.reverse]
  | c :: cs, acc =>
    if c.isWhitespace then
      if acc = [] then splitWsAux cs []
      else String.mk acc.reverse :: splitWsAux cs []
    else splitWsAux cs (c :: acc)

/-- `str::split_whitespace`: maximal runs of non-whitespace characters. -/
def splitWhitespace (s : String) : List String := splitWsAux s.data []

/-- Replaying a record's `pgn` field from the starting position
(`Chess::default()`), then `into_setup(EnPassantMode::Legal)`. -/
def replayPgn (pgn : String) : Option Setup :=
  (replayTokens defaultSetup (splitWhitespace pgn)).map intoSetup

structure Opening where
  eco : String
  name : String
  setup : Setup
  pgn : Option String
deriving DecidableEq, Repr

structure OpeningRecord where
  eco : String
  name : String
  pgn : String
deriving DecidableEq, Repr

def startingOpening : Opening := ⟨"Extra", "Starting Position", defaultSetup, none⟩

def emptyOpening : Opening := ⟨"Extra", "Empty Board", emptySetup, none⟩

def buildOpening (r : OpeningRecord) : Option Opening :=
  (replayPgn r.pgn).map fun st => ⟨r.eco, r.name, st, some r.pgn⟩

def buildAll : List OpeningRecord → Option (List Opening)
  | [] => some []
  | r :: rs =>
    match buildOpening r with
    | none => none
    | some o =>
      match buildAll rs with
      | none => none
      | some os => some (o :: os)

/-- The `OPENINGS` static: the two synthetic entries followed by one
entry per parsed record, in source order.  `none` models a construction
panic. -/
def buildOpenings (records : List OpeningRecord) : Option (List Opening) :=
  (buildAll records).map fun parsed => startingOpening :: emptyOpening :: parsed

/-! ### Lookup commands (translated from `opening.rs`) -/

inductive Error : Type
  | NoOpeningFound
  | NoMatchFound
  | FenError
deriving DecidableEq, Repr

instance {α β : Type} [DecidableEq α] [DecidableEq β] : DecidableEq (Except α β) := fun a b =>
  match a, b with
  | .ok x, .ok y =>
    if h : x = y then .isTrue (by rw [h]) else .isFalse fun hc => h (Except.ok.inj hc)
  | .error x, .error y =>
    if h : x = y then .isTrue (by rw [h]) else .isFalse fun hc => h (Except.error.inj hc)
  | .ok x, .error y => .isFalse fun hc => Except.noConfusion hc
  | .error x, .ok y => .isFalse fun hc => Except.noConfusion hc

/-- `get_opening_from_name`: `find` by exact name, then
`o.pgn.clone().expect("opening without pgn")` (the panic is the outer
`none`), else `Error::NoOpeningFound`. -/
def get_opening_from_name (openings : List Opening) (name : String) :
    Option (Except Error String) :=
  match openings.find? fun o => decide (o.name = name) with
  | none => some (.error .NoOpeningFound)
  | some o =>
    match o.pgn with
    | some p => some (.ok p)
    | none => none

/-- `get_opening_from_setup`: first entry with a structurally equal
`setup`, else `Error::NoOpeningFound`. -/
def get_opening_from_setup (openings : List Opening) (setup : Setup) : Except Error String :=
  match openings.find? fun o => decide (o.setup = setup) with
  | some o => .ok o.name
  | none => .error .NoOpeningFound

def charPiece (c : Char) : Option Piece :=
  if c = 'P' then some ⟨.white, .pawn⟩
  else if c = 'N' then some ⟨.white, .knight⟩
  else if c = 'B' then some ⟨.white, .bishop⟩
  else if c = 'R' then some ⟨.white, .rook⟩
  else if c = 'Q' then some ⟨.white, .queen⟩
  else if c = 'K' then some ⟨.white, .king⟩
  else if c = 'p' then some ⟨.black, .pawn⟩
  else if c = 'n' then some ⟨.black, .knight⟩
  else if c = 'b' then some ⟨.black, .bishop⟩
  else if c = 'r' then some ⟨.black, .rook⟩
  else if c = 'q' then some ⟨.black, .queen⟩
  else if c = 'k' then some ⟨.black, .king⟩
  else none

def parseFenRow : List Char → Option (List (Option Piece))
  | [] => some []
  | c :: rest => do
    let tail ← parseFenRow rest
    if '1' ≤ c ∧ c ≤ '8' then
      pure (List.replicate (c.toNat - '0'.toNat) none ++ tail)
    else do
      let p ← charPiece c
      pure (some p :: tail)

def splitSlash : List Char → List (List Char)
  | [] => [[]]
  | c :: cs =>
    match splitSlash cs with
    | [] => [[]]
    | r :: rs => if c = '/' then [] :: r :: rs else (c :: r) :: rs

def parseFenBoard (s : String) : Option Board := do
  let rows := splitSlash s.data
  if rows.length = 8 then
    let parsed ← rows.mapM fun row => do
      let r ← parseFenRow row
      if r.length = 8 then pure r else none
    pure parsed.reverse.flatten
  else none

def parseFenTurn (s : String) : Option Color :=
  if s = "w" then some .white else if s = "b" then some .black else none

def parseFenCastling (s : String) : Option (List Nat) :=
  if s = "-" then some []
  else if s.data ≠ [] ∧ s.data.all fun c => decide (c ∈ ['K', 'Q', 'k', 'q']) then
    some ([0, 7, 56, 63].filter fun sq =>
      decide ((sq = 7 ∧ 'K' ∈ s.data) ∨ (sq = 0 ∧ 'Q' ∈ s.data) ∨
        (sq = 63 ∧ 'k' ∈ s.data) ∨ (sq = 56 ∧ 'q' ∈ s.data)))
  else none

def parseFenSquare (s : String) : Option Nat :=
  match s.data with
  | [f, r] => do
    let ff ← charFile f
    let rr ← charRank r
    pure (rr * 8 + ff)
  | _ => none

def parseFenNat (s : String) : Option Nat :=
  if !s.data.isEmpty && s.data.all Char.isDigit then
    some (s.data.foldl (fun n c => n * 10 + (c.toNat - '0'.toNat)) 0)
  else none

/-- Modelled from the spec: `parsePosition(text)` of the Position Engine
(shakmaty `Fen::from_str` followed by `into_setup`), §6. -/
def parseFen (s : String) : Except Error Setup :=
  match splitWhitespace s with
  | [b, t, c, e, h, f] =>
    match parseFenBoard b, parseFenTurn t, parseFenCastling c,
        (if e = "-" then some none else (parseFenSquare e).map some),
        parseFenNat h, parseFenNat f with
    | some board, some turn, some cast, some ep, some hm, some fm =>
      .ok ⟨board, turn, cast, ep, hm, fm⟩
    | _, _, _, _, _, _ => .error .FenError
  | _ => .error .FenError

/-- `get_opening_from_fen`: parse the FEN (`?` propagates the failure),
then behave as `get_opening_from_setup`. -/
def get_opening_from_fen (openings : List Opening) (fen : String) : Except Error String :=
  match parseFen fen with
  | .error e => .error e
  | .ok setup => get_opening_from_setup openings setup

/-! ### Spec-modelled similarity metric (external `strsim` crate)

Modelled from the spec, §4.4: "a normalized string-similarity measure in
the closed range [0.0, 1.0], weighted to reward shared prefixes (a
Jaro-Winkler-style metric): 1.0 means identical strings".  This is the
textbook Jaro-Winkler computation: greedy windowed character matching,
transposition count, and a boost for up to four shared leading
characters.  `f64` values are modelled as rationals.
-/

/-- One step of the greedy Jaro matching: find the first not-yet-flagged
character equal to `c` whose index lies in `[lo, hi]`, flag it. -/
def tryMatch (c : Char) (lo hi : Nat) : List (Char × Bool) → Nat → Option (List (Char × Bool))
  | [], _ => none
  | (d, f) :: rest, j =>
    if lo ≤ j ∧ j ≤ hi ∧ f = false ∧ d = c then some ((d, true) :: rest)
    else
      match tryMatch c lo hi rest (j + 1) with
      | some rest' => some ((d, f) :: rest')
      | none => none

/-- Greedy Jaro matching of every character of the first string against
the flagged second string; returns the matched characters of the first
string in order, and the final flags. -/
def matchAll (w : Nat) : List Char → Nat → List (Char × Bool) → List Char × List (Char × Bool)
  | [], _, bs => ([], bs)
  | c :: as, i, bs =>
    match tryMatch c (i - w) (i + w) bs 0 with
    | some bs' =>
      let (s, bs2) := matchAll w as (i + 1) bs'
      (c :: s, bs2)
    | none => matchAll w as (i + 1) bs

/-- The greedy matching run of the Jaro computation. -/
def jmatch (a b : List Char) : List Char × List (Char × Bool) :=
  matchAll (max a.length b.length / 2 - 1) a 0 (b.map fun c => (c, false))

/-- The matched characters of the second string, in order. -/
def sideB (a b : List Char) : List Char :=
  ((jmatch a b).2.filter fun p => p.2).map fun p => p.1

/-- The Jaro statistics of two strings: the number `m` of matched
characters and twice the transposition count. -/
def jaroStats (a b : List Char) : Nat × Nat :=
  ((jmatch a b).1.length,
    (((jmatch a b).1.zip (sideB a b)).filter fun p => decide (p.1 ≠ p.2)).length)

/-- The Jaro similarity, over exact rationals. -/
def jaroQ (a b : List Char) : ℚ :=
  if a.length = 0 ∧ b.length = 0 then 1
  else if a.length = 0 ∨ b.length = 0 then 0
  else if (jaroStats a b).1 = 0 then 0
  else
    (((jaroStats a b).1 : ℚ) / (a.length : ℚ) + ((jaroStats a b).1 : ℚ) / (b.length : ℚ) +
      (((jaroStats a b).1 : ℚ) - ((jaroStats a b).2 : ℚ) / 2) / ((jaroStats a b).1 : ℚ)) / 3

/-- Number of equal leading characters of two strings. -/
def commonLead : List Char → List Char → Nat
  | a :: as, b :: bs => if a = b then commonLead as bs + 1 else 0
  | _, _ => 0

/-- Modelled from the spec: `strsim::jaro_winkler`, over exact
rationals. -/
def jaro_winkler (a b : String) : ℚ :=
  jaroQ a.data b.data +
    ((min (commonLead a.data b.data) 4 : Nat) : ℚ) * (1 / 10) * (1 - jaroQ a.data b.data)

/-- Division as `f64` produces it: a zero denominator yields no real
number (infinity or NaN), modelled as `none`. -/
def fdiv (x y : ℚ) : Option ℚ := if y = 0 then none else some (x / y)

/-- The Jaro similarity computed with `fdiv`: `none` would mean the
floating-point computation produced no real value. -/
def jaroF (a b : List Char) : Option ℚ :=
  if a.length = 0 ∧ b.length = 0 then some 1
  else if a.length = 0 ∨ b.length = 0 then some 0
  else if (jaroStats a b).1 = 0 then some 0
  else do
    let x ← fdiv ((jaroStats a b).1 : ℚ) (a.length : ℚ)
    let y ← fdiv ((jaroStats a b).1 : ℚ) (b.length : ℚ)
    let t ← fdiv ((jaroStats a b).2 : ℚ) 2
    let z ← fdiv (((jaroStats a b).1 : ℚ) - t) ((jaroStats a b).1 : ℚ)
    fdiv (x + y + z) 3

/-- `strsim::jaro_winkler` with NaN tracking. -/
def jaro_winklerF (a b : String) : Option ℚ :=
  (jaroF a.data b.data).map fun j =>
    j + ((min (commonLead a.data b.data) 4 : Nat) : ℚ) * (1 / 10) * (1 - j)

/-- `f64::partial_cmp`: defined exactly on the non-NaN (`some`) values;
`search_opening_name` unwraps its result. -/
def pcmpF : Option ℚ → Option ℚ → Option Ordering
  | some x, some y => some (compare x y)
  | _, _ => none

/-! ### Fuzzy search (translated from `opening.rs`, `search_opening_name`) -/

def cmpR (a b : Opening × ℚ) : Prop := b.2 ≤ a.2

instance : DecidableRel cmpR := fun a b => inferInstanceAs (Decidable (b.2 ≤ a.2))

instance : IsTotal (Opening × ℚ) cmpR := ⟨fun a b => le_total b.2 a.2⟩

instance : IsTrans (Opening × ℚ) cmpR := ⟨fun _ _ _ h1 h2 => le_trans h2 h1⟩

/-- `best_matches.sort_by(|a, b| b.1.partial_cmp(&a.1).unwrap())`: the
stable sort by descending score (the unwrap is justified by `pcmpF`
being defined on all scores, see the claim-C10 theorem). -/
def sortDesc (l : List (Opening × ℚ)) : List (Opening × ℚ) := l.insertionSort cmpR

def lastScore (l : List (Opening × ℚ)) : ℚ := (l.getLast?.map Prod.snd).getD 0

/-- The body of the `for opening in OPENINGS.iter()` loop of
`search_opening_name`: skip if the name is already in the working list;
otherwise push-and-sort when below 15 entries, or evict the
lowest-scoring entry when the new score strictly exceeds it. -/
def searchStep (query : String) (best : List (Opening × ℚ)) (o : Opening) :
    List (Opening × ℚ) :=
  if best.any fun m => decide (m.1.name = o.name) then best
  else if best.length < 15 then sortDesc (best ++ [(o, jaro_winkler query o.name)])
  else
    match best.getLast? with
    | some m =>
      if m.2 < jaro_winkler query o.name then
        sortDesc (best.dropLast ++ [(o, jaro_winkler query o.name)])
      else best
    | none => best

def runSearch (query : String) (openings : List Opening) : List (Opening × ℚ) :=
  openings.foldl (searchStep query) []

/-- `search_opening_name`: the working list after the loop, mapped to its
openings, or `Error::NoMatchFound` when it is empty. -/
def search_opening_name (openings : List Opening) (query : String) :
    Except Error (List Opening) :=
  if (runSearch query openings).isEmpty then .error .NoMatchFound
  else .ok ((runSearch query openings).map Prod.fst)

/-! ### Helper definitions for the proofs -/

/-- Number of flagged entries (matched characters of the second string). -/
def flagCount (bs : List (Char × Bool)) : Nat := (bs.filter fun p => p.2).length

/-- The names of the openings in a working list. -/
def namesOf (l : List (Opening × ℚ)) : List String := l.map fun p => p.1.name

/-- The loop invariant of `search_opening_name` relating the working list
`l` to the already-processed prefix `P` of the index: bounded size,
sorted descending, pairwise distinct names, scores as computed, every
entry the first index occurrence of its name, and any processed name
missing from a full working list scores at most the current minimum. -/
def SInv (q : String) (P : List Opening) (l : List (Opening × ℚ)) : Prop :=
  l.length ≤ 15 ∧
  List.Sorted cmpR l ∧
  (namesOf l).Nodup ∧
  (∀ p ∈ l, p.2 = jaro_winkler q p.1.name) ∧
  (∀ p ∈ l, P.find? (fun o => decide (o.name = p.1.name)) = some p.1) ∧
  (∀ e ∈ P, e.name ∉ namesOf l → l.length = 15 ∧ jaro_winkler q e.name ≤ lastScore l)

/-- Concrete fixtures for witnesses. -/
def opA : Opening := ⟨"A00", "Aa", emptySetup, some "a3"⟩

def opB : Opening := ⟨"A01", "Ab", defaultSetup, some "b3"⟩

def opC : Opening := ⟨"A02", "Aa", defaultSetup, some "a4"⟩

/-! ### Lemmas about the Jaro-Winkler metric -/

theorem tryMatch_some_spec {c : Char} {lo hi : Nat} :
    ∀ {bs : List (Char × Bool)} {j : Nat} {bs' : List (Char × Bool)},
      tryMatch c lo hi bs j = some bs' →
      flagCount bs' = flagCount bs + 1 ∧ bs'.length = bs.length
  | [], j, bs', h => by simp [tryMatch] at h
  | (d, f) :: rest, j, bs', h => by
    rw [tryMatch] at h
    split at h
    · rename_i hc
      cases h
      obtain ⟨-, -, hf, -⟩ := hc
      subst hf
      simp [flagCount, List.filter]
    · revert h
      cases hrec : tryMatch c lo hi rest (j + 1) with
      | none => intro h; cases h
      | some rest' =>
        intro h
        cases h
        have ih := tryMatch_some_spec hrec
        cases f <;> simp only [flagCount, List.filter, List.length_cons] at ih ⊢ <;> omega

theorem matchAll_spec {w : Nat} :
    ∀ (as : List Char) (i : Nat) (bs : List (Char × Bool)),
      flagCount (matchAll w as i bs).2 = flagCount bs + (matchAll w as i bs).1.length ∧
      (matchAll w as i bs).2.length = bs.length ∧
      (matchAll w as i bs).1.length ≤ as.length
  | [], i, bs => by simp [matchAll]
  | c :: as, i, bs => by
    rw [matchAll]
    cases htm : tryMatch c (i - w) (i + w) bs 0 with
    | none =>
      have ih := matchAll_spec (w := w) as (i + 1) bs
      exact ⟨ih.1, ih.2.1, Nat.le_succ_of_le ih.2.2⟩
    | some bs' =>
      have htc := tryMatch_some_spec htm
      have ih := matchAll_spec (w := w) as (i + 1) bs'
      refine ⟨?_, ?_, ?_⟩
      · simp only [List.length_cons]
        rw [ih.1, htc.1]
        omega
      · rw [ih.2.1, htc.2]
      · simpa using Nat.succ_le_succ ih.2.2

theorem flagCount_le_length (bs : List (Char × Bool)) : flagCount bs ≤ bs.length :=
  List.length_filter_le _ _

theorem jaroStats_le (a b : List Char) :
    (jaroStats a b).1 ≤ a.length ∧ (jaroStats a b).1 ≤ b.length ∧
      (jaroStats a b).2 ≤ (jaroStats a b).1 := by
  have hspec := matchAll_spec (w := max a.length b.length / 2 - 1) a 0
    (b.map fun c => (c, false))
  have h0 : flagCount (b.map fun c => (c, false)) = 0 := by
    simp [flagCount, List.filter_map, Function.comp]
  rw [show matchAll (max a.length b.length / 2 - 1) a 0 (b.map fun c => (c, false)) =
    jmatch a b from rfl] at hspec
  refine ⟨hspec.2.2, ?_, ?_⟩
  · have h1 : flagCount (jmatch a b).2 = (jmatch a b).1.length := by
      rw [hspec.1, h0, Nat.zero_add]
    have h2 : flagCount (jmatch a b).2 ≤ (jmatch a b).2.length := flagCount_le_length _
    have h3 : (jmatch a b).2.length = b.length := by simpa using hspec.2.1
    calc (jaroStats a b).1 = flagCount (jmatch a b).2 := h1.symm
      _ ≤ (jmatch a b).2.length := h2
      _ = b.length := h3
  · calc (jaroStats a b).2
        ≤ ((jmatch a b).1.zip (sideB a b)).length := List.length_filter_le _ _
      _ ≤ (jmatch a b).1.length := by
          rw [List.length_zip]; exact Nat.min_le_left _ _

theorem jaroQ_bounds (a b : List Char) : 0 ≤ jaroQ a b ∧ jaroQ a b ≤ 1 := by
  unfold jaroQ
  split
  · norm_num
  · split
    · norm_num
    · split
      · norm_num
      · rename_i h1 h2 hm
        obtain ⟨hma, hmb, htm⟩ := jaroStats_le a b
        have hla : 0 < a.length := Nat.pos_of_ne_zero fun h => h2 (Or.inl h)
        have hlb : 0 < b.length := Nat.pos_of_ne_zero fun h => h2 (Or.inr h)
        have hmpos : 0 < (jaroStats a b).1 := Nat.pos_of_ne_zero hm
        have hLA : (0 : ℚ) < (a.length : ℚ) := by exact_mod_cast hla
        have hLB : (0 : ℚ) < (b.length : ℚ) := by exact_mod_cast hlb
        have hM : (0 : ℚ) < ((jaroStats a b).1 : ℚ) := by exact_mod_cast hmpos
        have hT : (0 : ℚ) ≤ ((jaroStats a b).2 : ℚ) := by positivity
        have hTM : ((jaroStats a b).2 : ℚ) ≤ ((jaroStats a b).1 : ℚ) := by exact_mod_cast htm
        have hMA : ((jaroStats a b).1 : ℚ) ≤ (a.length : ℚ) := by exact_mod_cast hma
        have hMB : ((jaroStats a b).1 : ℚ) ≤ (b.length : ℚ) := by exact_mod_cast hmb
        have d1 : ((jaroStats a b).1 : ℚ) / (a.length : ℚ) ≤ 1 := by
          rw [div_le_one hLA]; exact hMA
        have d2 : ((jaroStats a b).1 : ℚ) / (b.length : ℚ) ≤ 1 := by
          rw [div_le_one hLB]; exact hMB
        have d3 : (((jaroStats a b).1 : ℚ) - ((jaroStats a b).2 : ℚ) / 2) /
            ((jaroStats a b).1 : ℚ) ≤ 1 := by
          rw [div_le_one hM]; linarith
        have n1 : 0 ≤ ((jaroStats a b).1 : ℚ) / (a.length : ℚ) := by positivity
        have n2 : 0 ≤ ((jaroStats a b).1 : ℚ) / (b.length : ℚ) := by positivity
        have n3 : 0 ≤ (((jaroStats a b).1 : ℚ) - ((jaroStats a b).2 : ℚ) / 2) /
            ((jaroStats a b).1 : ℚ) := by
          apply div_nonneg _ hM.le
          linarith
        constructor
        · apply div_nonneg _ (by norm_num : (0 : ℚ) ≤ 3)
          linarith
        · rw [div_le_one (by norm_num : (0 : ℚ) < 3)]
          linarith

theorem jaro_winkler_bounds (a b : String) :
    0 ≤ jaro_winkler a b ∧ jaro_winkler a b ≤ 1 := by
  obtain ⟨hj0, hj1⟩ := jaroQ_bounds a.data b.data
  unfold jaro_winkler
  have hl4 : (min (commonLead a.data b.data) 4 : Nat) ≤ 4 := Nat.min_le_right _ _
  have hc1 : ((min (commonLead a.data b.data) 4 : Nat) : ℚ) ≤ 4 := by exact_mod_cast hl4
  have hc0 : (0 : ℚ) ≤ ((min (commonLead a.data b.data) 4 : Nat) : ℚ) := by positivity
  constructor
  · nlinarith
  · nlinarith

theorem tryMatch_flagged_id (c : Char) (lo hi : Nat) :
    ∀ (done : List Char) (rest : List Char) (j : Nat),
      lo ≤ j + done.length → j + done.length ≤ hi →
      tryMatch c lo hi
          ((done.map fun d => (d, true)) ++ (c, false) :: rest.map fun d => (d, false)) j
        = some ((done.map fun d => (d, true)) ++ (c, true) :: rest.map fun d => (d, false))
  | [], rest, j, hlo, hhi => by
    simp only [List.map_nil, List.nil_append]
    rw [tryMatch]
    rw [if_pos ⟨by simpa using hlo, by simpa using hhi, rfl, rfl⟩]
  | d :: ds, rest, j, hlo, hhi => by
    simp only [List.map_cons, List.cons_append]
    rw [tryMatch]
    have hcond : ¬(lo ≤ j ∧ j ≤ hi ∧ true = false ∧ d = c) := by
      rintro ⟨-, -, h, -⟩; cases h
    rw [if_neg hcond]
    rw [tryMatch_flagged_id c lo hi ds rest (j + 1)
      (by simp only [List.length_cons] at hlo; omega)
      (by simp only [List.length_cons] at hhi; omega)]

theorem matchAll_id (w : Nat) :
    ∀ (rest done : List Char),
      matchAll w rest done.length
        ((done.map fun d => (d, true)) ++ rest.map fun d => (d, false))
        = (rest, (done ++ rest).map fun d => (d, true))
  | [], done => by simp [matchAll]
  | c :: rs, done => by
    rw [matchAll]
    have harg : (done.map fun d => (d, true)) ++ (c :: rs).map (fun d => (d, false))
        = (done.map fun d => (d, true)) ++ (c, false) :: rs.map fun d => (d, false) := by
      simp
    rw [harg]
    rw [tryMatch_flagged_id c (done.length - w) (done.length + w) done rs 0
      (by omega) (by omega)]
    dsimp only
    have heq : (done.map fun d => (d, true)) ++ (c, true) :: rs.map (fun d => (d, false))
        = ((done ++ [c]).map fun d => (d, true)) ++ rs.map fun d => (d, false) := by
      simp
    rw [heq]
    rw [show done.length + 1 = (done ++ [c]).length by simp]
    rw [matchAll_id w rs (done ++ [c])]
    simp

theorem zip_self_diag (l : List Char) : l.zip l = l.map fun x => (x, x) := by
  induction l with
  | nil => rfl
  | cons x xs ih => simp [ih]

theorem zip_self_ne_nil (l : List Char) :
    (l.zip l).filter (fun p => decide (p.1 ≠ p.2)) = [] := by
  rw [zip_self_diag]
  induction l with
  | nil => rfl
  | cons x xs ih => simp only [List.map_cons, List.filter, ih]; simp

theorem jaroStats_self (a : List Char) : jaroStats a a = (a.length, 0) := by
  have hm := matchAll_id (max a.length a.length / 2 - 1) a []
  simp only [List.map_nil, List.nil_append, List.length_nil, List.nil_append] at hm
  have hjm : jmatch a a = (a, a.map fun d => (d, true)) := by
    unfold jmatch
    simpa using hm
  have hsB : sideB a a = a := by
    unfold sideB
    rw [hjm]
    have hf : ((a.map fun d => (d, true)).filter fun p => p.2) = a.map fun d => (d, true) := by
      rw [List.filter_eq_self]
      intro x hx
      obtain ⟨d, hd, rfl⟩ := List.mem_map.mp hx
      rfl
    rw [hf]
    rw [List.map_map]
    simp [Function.comp_def]
  unfold jaroStats
  rw [hjm, hsB]
  simp only [zip_self_ne_nil, List.length_nil]

theorem jaroQ_self (a : List Char) : jaroQ a a = 1 := by
  rcases Nat.eq_zero_or_pos a.length with h0 | hpos
  · unfold jaroQ
    rw [if_pos ⟨h0, h0⟩]
  · unfold jaroQ
    rw [if_neg (by omega), if_neg (by omega)]
    rw [jaroStats_self]
    dsimp only
    rw [if_neg (by omega)]
    have hA : ((a.length : ℚ)) ≠ 0 := by
      exact_mod_cast Nat.pos_iff_ne_zero.mp hpos
    field_simp
    norm_num

theorem jaro_winkler_self (a : String) : jaro_winkler a a = 1 := by
  unfold jaro_winkler
  rw [jaroQ_self]
  ring

theorem jaroF_eq (a b : List Char) : jaroF a b = some (jaroQ a b) := by
  unfold jaroF jaroQ
  split
  · rfl
  · split
    · rfl
    · split
      · rfl
      · rename_i h1 h2 hm
        have hla : ((a.length : ℚ)) ≠ 0 := by
          have : a.length ≠ 0 := fun h => h2 (Or.inl h)
          exact_mod_cast this
        have hlb : ((b.length : ℚ)) ≠ 0 := by
          have : b.length ≠ 0 := fun h => h2 (Or.inr h)
          exact_mod_cast this
        have hM : (((jaroStats a b).1 : ℚ)) ≠ 0 := by exact_mod_cast hm
        simp [fdiv, hla, hlb, hM, Option.bind]

theorem jaro_winklerF_eq (a b : String) :
    jaro_winklerF a b = some (jaro_winkler a b) := by
  unfold jaro_winklerF jaro_winkler
  rw [jaroF_eq]
  rfl

/-! ### Lemmas about the fuzzy search -/

theorem sortDesc_perm (l : List (Opening × ℚ)) : List.Perm (sortDesc l) l :=
  List.perm_insertionSort cmpR l

theorem sortDesc_sorted (l : List (Opening × ℚ)) : List.Sorted cmpR (sortDesc l) :=
  List.sorted_insertionSort cmpR l

theorem sortDesc_length (l : List (Opening × ℚ)) : (sortDesc l).length = l.length :=
  (sortDesc_perm l).length_eq

theorem mem_sortDesc {l : List (Opening × ℚ)} {x : Opening × ℚ} :
    x ∈ sortDesc l ↔ x ∈ l :=
  (sortDesc_perm l).mem_iff

theorem namesOf_sortDesc_perm (l : List (Opening × ℚ)) :
    List.Perm (namesOf (sortDesc l)) (namesOf l) :=
  (sortDesc_perm l).map _

theorem mem_namesOf {l : List (Opening × ℚ)} {n : String} :
    n ∈ namesOf l ↔ ∃ p ∈ l, p.1.name = n := by
  simp [namesOf]

theorem lastScore_eq_getLast {l : List (Opening × ℚ)} (h : l ≠ []) :
    lastScore l = (l.getLast h).2 := by
  simp [lastScore, List.getLast?_eq_getLast_of_ne_nil h]

theorem sorted_lastScore_le :
    ∀ {l : List (Opening × ℚ)}, List.Sorted cmpR l → ∀ p ∈ l, lastScore l ≤ p.2
  | [], _, p, hp => absurd hp (List.not_mem_nil p)
  | [x], _, p, hp => by
    rcases List.mem_singleton.mp hp with rfl
    simp [lastScore]
  | x :: y :: t, hs, p, hp => by
    rw [List.sorted_cons] at hs
    have hxy : cmpR x y := hs.1 y (List.mem_cons_self y t)
    have hls : lastScore (x :: y :: t) = lastScore (y :: t) := by
      simp [lastScore]
    rcases List.mem_cons.mp hp with rfl | hp'
    · rw [hls]
      exact le_trans (sorted_lastScore_le hs.2 y (List.mem_cons_self y t)) hxy
    · rw [hls]
      exact sorted_lastScore_le hs.2 p hp'

theorem mem_dropLast_or_getLast {α : Type} {l : List α} (h : l ≠ []) {x : α}
    (hx : x ∈ l) : x ∈ l.dropLast ∨ x = l.getLast h := by
  have hl := List.dropLast_append_getLast h
  rw [← hl] at hx
  rcases List.mem_append.mp hx with h1 | h2
  · exact Or.inl h1
  · exact Or.inr (List.mem_singleton.mp h2)

theorem any_name_false {l : List (Opening × ℚ)} {o : Opening}
    (h : (l.any fun m => decide (m.1.name = o.name)) = false) :
    ∀ m ∈ l, m.1.name ≠ o.name := by
  intro m hm
  have h2 := List.any_eq_false.mp h m hm
  simpa using h2

theorem searchStep_dup {q : String} {l : List (Opening × ℚ)} {o : Opening}
    (h : (l.any fun m => decide (m.1.name = o.name)) = true) :
    searchStep q l o = l := by
  rw [searchStep, if_pos h]

theorem searchStep_insert {q : String} {l : List (Opening × ℚ)} {o : Opening}
    (h : (l.any fun m => decide (m.1.name = o.name)) = false) (hlen : l.length < 15) :
    searchStep q l o = sortDesc (l ++ [(o, jaro_winkler q o.name)]) := by
  rw [searchStep, if_neg (by simp [h]), if_pos hlen]

theorem searchStep_full_skip {q : String} {l : List (Opening × ℚ)} {o : Opening}
    (h : (l.any fun m => decide (m.1.name = o.name)) = false) (hlen : ¬l.length < 15)
    (hsc : jaro_winkler q o.name ≤ lastScore l) : searchStep q l o = l := by
  have hne : l ≠ [] := by
    intro h0
    rw [h0] at hlen
    simp at hlen
  rw [searchStep, if_neg (by simp [h]), if_neg hlen,
    List.getLast?_eq_getLast_of_ne_nil hne]
  dsimp only
  rw [if_neg]
  rw [lastScore_eq_getLast hne] at hsc
  exact not_lt.mpr hsc

theorem searchStep_full_evict {q : String} {l : List (Opening × ℚ)} {o : Opening}
    (h : (l.any fun m => decide (m.1.name = o.name)) = false) (hlen : ¬l.length < 15)
    (hsc : lastScore l < jaro_winkler q o.name) :
    searchStep q l o = sortDesc (l.dropLast ++ [(o, jaro_winkler q o.name)]) := by
  have hne : l ≠ [] := by
    intro h0
    rw [h0] at hlen
    simp at hlen
  rw [searchStep, if_neg (by simp [h]), if_neg hlen,
    List.getLast?_eq_getLast_of_ne_nil hne]
  dsimp only
  rw [if_pos (show (l.getLast hne).2 < jaro_winkler q o.name by
    rw [← lastScore_eq_getLast hne]; exact hsc)]

theorem find?_append_some {f : Opening → Bool} {P : List Opening} {x : Opening}
    (Q : List Opening) (h : P.find? f = some x) : (P ++ Q).find? f = some x := by
  rw [List.find?_append, h]
  rfl

theorem find?_append_of_none {f : Opening → Bool} {P : List Opening}
    (Q : List Opening) (h : P.find? f = none) : (P ++ Q).find? f = Q.find? f := by
  rw [List.find?_append, h]
  rfl

theorem SInv_step {q : String} {P : List Opening} {l : List (Opening × ℚ)}
    (h : SInv q P l) (o : Opening) : SInv q (P ++ [o]) (searchStep q l o) := by
  obtain ⟨h15, hsort, hnd, hscore, hfind, habs⟩ := h
  cases hdup : l.any fun m => decide (m.1.name = o.name) with
  | true =>
    rw [searchStep_dup hdup]
    obtain ⟨pd, hpdmem, hpdn⟩ := List.any_eq_true.mp hdup
    have hpdn' : pd.1.name = o.name := of_decide_eq_true hpdn
    refine ⟨h15, hsort, hnd, hscore, ?_, ?_⟩
    · intro p hp
      exact find?_append_some [o] (hfind p hp)
    · intro e he hnot
      rcases List.mem_append.mp he with heP | heo
      · exact habs e heP hnot
      · rcases List.mem_singleton.mp heo with rfl
        exact absurd (mem_namesOf.mpr ⟨pd, hpdmem, hpdn'⟩) hnot
  | false =>
    have hnames := any_name_false hdup
    have hnol : o.name ∉ namesOf l := by
      intro hmem
      obtain ⟨p, hp, hpn⟩ := mem_namesOf.mp hmem
      exact hnames p hp hpn
    by_cases hlen : l.length < 15
    · -- insert case
      have hPn : ∀ e ∈ P, e.name ≠ o.name := by
        intro e heP heq
        by_cases hmem : e.name ∈ namesOf l
        · obtain ⟨p, hp, hpn⟩ := mem_namesOf.mp hmem
          exact hnames p hp (hpn.trans heq)
        · have := (habs e heP hmem).1
          omega
      have hnone : P.find? (fun e => decide (e.name = o.name)) = none :=
        List.find?_eq_none.mpr fun e heP => by
          simp only [decide_eq_true_eq]
          exact hPn e heP
      rw [searchStep_insert hdup hlen]
      refine ⟨?_, sortDesc_sorted _, ?_, ?_, ?_, ?_⟩
      · rw [sortDesc_length, List.length_append]
        simp only [List.length_cons, List.length_nil]
        omega
      · refine (namesOf_sortDesc_perm _).nodup_iff.mpr ?_
        have heq2 : namesOf (l ++ [(o, jaro_winkler q o.name)])
            = namesOf l ++ [o.name] := by
          simp [namesOf]
        rw [heq2]
        exact hnd.append (List.nodup_singleton _) fun n hn hn2 => by
          rcases List.mem_singleton.mp hn2 with rfl
          exact hnol hn
      · intro p hp
        rcases List.mem_append.mp (mem_sortDesc.mp hp) with hpl | hpx
        · exact hscore p hpl
        · rcases List.mem_singleton.mp hpx with rfl
          rfl
      · intro p hp
        rcases List.mem_append.mp (mem_sortDesc.mp hp) with hpl | hpx
        · exact find?_append_some [o] (hfind p hpl)
        · rcases List.mem_singleton.mp hpx with rfl
          rw [find?_append_of_none [o] hnone]
          simp
      · intro e he hnot
        exfalso
        rcases List.mem_append.mp he with heP | heo
        · by_cases hmem : e.name ∈ namesOf l
          · obtain ⟨p, hp, hpn⟩ := mem_namesOf.mp hmem
            exact hnot (mem_namesOf.mpr
              ⟨p, mem_sortDesc.mpr (List.mem_append.mpr (Or.inl hp)), hpn⟩)
          · have := (habs e heP hmem).1
            omega
        · rcases List.mem_singleton.mp heo with rfl
          exact hnot (mem_namesOf.mpr ⟨(e, jaro_winkler q e.name),
            mem_sortDesc.mpr (List.mem_append.mpr (Or.inr (List.mem_singleton.mpr rfl))),
            rfl⟩)
    · -- full cases
      have hl15 : l.length = 15 := by omega
      have hne : l ≠ [] := by
        intro h0
        rw [h0] at hl15
        simp at hl15
      by_cases hsc : jaro_winkler q o.name ≤ lastScore l
      · rw [searchStep_full_skip hdup hlen hsc]
        refine ⟨h15, hsort, hnd, hscore, ?_, ?_⟩
        · intro p hp
          exact find?_append_some [o] (hfind p hp)
        · intro e he hnot
          rcases List.mem_append.mp he with heP | heo
          · exact habs e heP hnot
          · rcases List.mem_singleton.mp heo with rfl
            exact ⟨hl15, hsc⟩
      · push_neg at hsc
        have hPn : ∀ e ∈ P, e.name ≠ o.name := by
          intro e heP heq
          by_cases hmem : e.name ∈ namesOf l
          · obtain ⟨p, hp, hpn⟩ := mem_namesOf.mp hmem
            exact hnames p hp (hpn.trans heq)
          · have h2 := (habs e heP hmem).2
            rw [heq] at h2
            exact absurd h2 (not_le.mpr hsc)
        have hnone : P.find? (fun e => decide (e.name = o.name)) = none :=
          List.find?_eq_none.mpr fun e heP => by
            simp only [decide_eq_true_eq]
            exact hPn e heP
        rw [searchStep_full_evict hdup hlen hsc]
        have hsubl : ∀ p ∈ l.dropLast, p ∈ l := fun p hp =>
          (List.dropLast_sublist l).subset hp
        have hlen' : (sortDesc (l.dropLast ++ [(o, jaro_winkler q o.name)])).length = 15 := by
          rw [sortDesc_length, List.length_append, List.length_dropLast, hl15]
          rfl
        have hge : ∀ p ∈ sortDesc (l.dropLast ++ [(o, jaro_winkler q o.name)]),
            lastScore l ≤ p.2 := by
          intro p hp
          rcases List.mem_append.mp (mem_sortDesc.mp hp) with hpl | hpx
          · exact sorted_lastScore_le hsort p (hsubl p hpl)
          · rcases List.mem_singleton.mp hpx with rfl
            exact hsc.le
        have hne' : sortDesc (l.dropLast ++ [(o, jaro_winkler q o.name)]) ≠ [] := by
          intro h0
          have h2 := hlen'
          rw [h0] at h2
          simp at h2
        have hmono : lastScore l ≤
            lastScore (sortDesc (l.dropLast ++ [(o, jaro_winkler q o.name)])) := by
          rw [lastScore_eq_getLast hne']
          exact hge _ (List.getLast_mem hne')
        refine ⟨le_of_eq hlen', sortDesc_sorted _, ?_, ?_, ?_, ?_⟩
        · refine (namesOf_sortDesc_perm _).nodup_iff.mpr ?_
          have heq2 : namesOf (l.dropLast ++ [(o, jaro_winkler q o.name)])
              = namesOf l.dropLast ++ [o.name] := by
            simp [namesOf]
          rw [heq2]
          have hnd' : (namesOf l.dropLast).Nodup :=
            List.Nodup.sublist ((List.dropLast_sublist l).map _) hnd
          have hno2 : o.name ∉ namesOf l.dropLast := fun hmem => by
            obtain ⟨p, hp, hpn⟩ := mem_namesOf.mp hmem
            exact hnames p (hsubl p hp) hpn
          exact hnd'.append (List.nodup_singleton _) fun n hn hn2 => by
            rcases List.mem_singleton.mp hn2 with rfl
            exact hno2 hn
        · intro p hp
          rcases List.mem_append.mp (mem_sortDesc.mp hp) with hpl | hpx
          · exact hscore p (hsubl p hpl)
          · rcases List.mem_singleton.mp hpx with rfl
            rfl
        · intro p hp
          rcases List.mem_append.mp (mem_sortDesc.mp hp) with hpl | hpx
          · exact find?_append_some [o] (hfind p (hsubl p hpl))
          · rcases List.mem_singleton.mp hpx with rfl
            rw [find?_append_of_none [o] hnone]
            simp
        · intro e he hnot
          refine ⟨hlen', ?_⟩
          rcases List.mem_append.mp he with heP | heo
          · by_cases hmem : e.name ∈ namesOf l
            · obtain ⟨p, hp, hpn⟩ := mem_namesOf.mp hmem
              rcases mem_dropLast_or_getLast hne hp with hdl | hgl
              · exact absurd (mem_namesOf.mpr
                  ⟨p, mem_sortDesc.mpr (List.mem_append.mpr (Or.inl hdl)), hpn⟩) hnot
              · have hsv : jaro_winkler q e.name = lastScore l := by
                  rw [← hpn, ← hscore p hp, hgl, ← lastScore_eq_getLast hne]
                rw [hsv]
                exact hmono
            · exact le_trans (habs e heP hmem).2 hmono
          · rcases List.mem_singleton.mp heo with rfl
            exact absurd (mem_namesOf.mpr ⟨(e, jaro_winkler q e.name),
              mem_sortDesc.mpr (List.mem_append.mpr (Or.inr (List.mem_singleton.mpr rfl))),
              rfl⟩) hnot

theorem SInv_nil (q : String) : SInv q [] [] :=
  ⟨by norm_num, List.sorted_nil, List.nodup_nil,
    fun p hp => absurd hp (List.not_mem_nil p),
    fun p hp => absurd hp (List.not_mem_nil p),
    fun e he => absurd he (List.not_mem_nil e)⟩

theorem SInv_foldl (q : String) :
    ∀ (idx P : List Opening) (l : List (Opening × ℚ)),
      SInv q P l → SInv q (P ++ idx) (idx.foldl (searchStep q) l)
  | [], P, l, h => by simpa using h
  | o :: rest, P, l, h => by
    have h2 := SInv_foldl q rest (P ++ [o]) (searchStep q l o) (SInv_step h o)
    simpa [List.append_assoc] using h2

theorem SInv_runSearch (q : String) (idx : List Opening) :
    SInv q idx (runSearch q idx) := by
  have h := SInv_foldl q idx [] [] (SInv_nil q)
  simpa [runSearch] using h

theorem searchStep_length_ge (q : String) (l : List (Opening × ℚ)) (o : Opening) :
    l.length ≤ (searchStep q l o).length := by
  rw [searchStep]
  split
  · exact le_refl _
  · split
    · rw [sortDesc_length, List.length_append]
      simp
    · rename_i hdup hlen
      split
      · rename_i m hget
        split
        · rw [sortDesc_length, List.length_append, List.length_dropLast]
          simp only [List.length_cons, List.length_nil]
          omega
        · exact le_refl _
      · exact le_refl _

theorem searchStep_ne_nil {q : String} {l : List (Opening × ℚ)} {o : Opening}
    (h : l ≠ []) : searchStep q l o ≠ [] := by
  intro h0
  have h1 := searchStep_length_ge q l o
  rw [h0] at h1
  have h2 : l.length = 0 := Nat.le_zero.mp (by simpa using h1)
  exact h (List.length_eq_zero.mp h2)

theorem foldl_ne_nil (q : String) :
    ∀ (idx : List Opening) (l : List (Opening × ℚ)),
      l ≠ [] → idx.foldl (searchStep q) l ≠ []
  | [], l, h => h
  | o :: rest, l, h => foldl_ne_nil q rest (searchStep q l o) (searchStep_ne_nil h)

theorem runSearch_ne_nil (q : String) {idx : List Opening} (h : idx ≠ []) :
    runSearch q idx ≠ [] := by
  obtain ⟨o, rest, rfl⟩ := List.exists_cons_of_ne_nil h
  show rest.foldl (searchStep q) (searchStep q [] o) ≠ []
  apply foldl_ne_nil
  rw [searchStep_insert (l := []) rfl (by norm_num)]
  intro h0
  have h1 := sortDesc_length (([] : List (Opening × ℚ)) ++ [(o, jaro_winkler q o.name)])
  rw [h0] at h1
  simp at h1

theorem searchStep_keeps_hit {q : String} {l : List (Opening × ℚ)} (o : Opening)
    (hsort : List.Sorted cmpR l)
    (hex : ∃ p ∈ l, p.1.name = q ∧ p.2 = 1) :
    ∃ p ∈ searchStep q l o, p.1.name = q ∧ p.2 = 1 := by
  obtain ⟨p, hp, hpn, hps⟩ := hex
  rw [searchStep]
  split
  · exact ⟨p, hp, hpn, hps⟩
  · split
    · exact ⟨p, mem_sortDesc.mpr (List.mem_append.mpr (Or.inl hp)), hpn, hps⟩
    · rename_i hdup hlen
      split
      · rename_i m hget
        split
        · rename_i hlt
          have hne : l ≠ [] := by
            rintro rfl
            cases hget
          have hm : m = l.getLast hne := by
            have h2 := List.getLast?_eq_getLast_of_ne_nil hne
            rw [hget] at h2
            exact Option.some_inj.mp h2
          have hjw := (jaro_winkler_bounds q o.name).2
          have hmlt : m.2 < 1 := lt_of_lt_of_le hlt hjw
          have hpd : p ∈ l.dropLast := by
            rcases mem_dropLast_or_getLast hne hp with h1 | h2
            · exact h1
            · exfalso
              rw [h2, ← hm] at hps
              rw [hps] at hmlt
              exact lt_irrefl 1 hmlt
          exact ⟨p, mem_sortDesc.mpr (List.mem_append.mpr (Or.inl hpd)), hpn, hps⟩
        · exact ⟨p, hp, hpn, hps⟩
      · exact ⟨p, hp, hpn, hps⟩

theorem searchStep_arrival (q : String) (idx : List Opening)
    (hcount : ((idx.map Opening.name).dedup.filter fun n =>
      decide (1 ≤ jaro_winkler q n)).length < 15)
    {l : List (Opening × ℚ)} {o : Opening}
    (hsort : List.Sorted cmpR l) (hnd : (namesOf l).Nodup)
    (hscore : ∀ p ∈ l, p.2 = jaro_winkler q p.1.name)
    (hsub : ∀ p ∈ l, p.1.name ∈ idx.map Opening.name)
    (hnew : ∀ p ∈ l, p.1.name ≠ q)
    (ho : o.name = q) :
    ∃ p ∈ searchStep q l o, p.1.name = q ∧ p.2 = 1 := by
  have hdup : (l.any fun m => decide (m.1.name = o.name)) = false := by
    apply List.any_eq_false.mpr
    intro m hm
    simp only [decide_eq_true_eq]
    rw [ho]
    exact hnew m hm
  have hjw1 : jaro_winkler q o.name = 1 := by
    rw [ho]
    exact jaro_winkler_self q
  by_cases hlen : l.length < 15
  · rw [searchStep_insert hdup hlen]
    exact ⟨(o, jaro_winkler q o.name),
      mem_sortDesc.mpr (List.mem_append.mpr (Or.inr (List.mem_singleton.mpr rfl))),
      ho, hjw1⟩
  · have hlt : lastScore l < 1 := by
      by_contra hge
      push_neg at hge
      have hall : namesOf l ⊆ (idx.map Opening.name).dedup.filter
          fun n => decide (1 ≤ jaro_winkler q n) := by
        intro n hn
        obtain ⟨p, hp, hpn⟩ := mem_namesOf.mp hn
        rw [List.mem_filter]
        refine ⟨?_, ?_⟩
        · rw [List.mem_dedup, ← hpn]
          exact hsub p hp
        · simp only [decide_eq_true_eq]
          rw [← hpn, ← hscore p hp]
          exact le_trans hge (sorted_lastScore_le hsort p hp)
      have hsp := (List.Nodup.subperm hnd hall).length_le
      have hlname : (namesOf l).length = l.length := by simp [namesOf]
      omega
    rw [searchStep_full_evict hdup hlen (by rw [hjw1]; exact hlt)]
    exact ⟨(o, jaro_winkler q o.name),
      mem_sortDesc.mpr (List.mem_append.mpr (Or.inr (List.mem_singleton.mpr rfl))),
      ho, hjw1⟩

theorem search_hit_aux (q : String) (idx : List Opening)
    (hcount : ((idx.map Opening.name).dedup.filter fun n =>
      decide (1 ≤ jaro_winkler q n)).length < 15) :
    ∀ (suffix P : List Opening) (l : List (Opening × ℚ)),
      P ++ suffix = idx → SInv q P l →
      ((∃ p ∈ l, p.1.name = q ∧ p.2 = 1) ∨ ∀ e ∈ P, e.name ≠ q) →
      (∃ e ∈ P ++ suffix, e.name = q) →
      ∃ p ∈ suffix.foldl (searchStep q) l, p.1.name = q ∧ p.2 = 1
  | [], P, l, heq, hinv, hdisj, hex => by
    rcases hdisj with hl | hr
    · simpa using hl
    · exfalso
      obtain ⟨e, he, hen⟩ := hex
      rw [List.append_nil] at he
      exact hr e he hen
  | o :: rest, P, l, heq, hinv, hdisj, hex => by
    have hstep := SInv_step hinv o
    have heq' : (P ++ [o]) ++ rest = idx := by
      rw [List.append_assoc, List.singleton_append]
      exact heq
    have hex' : ∃ e ∈ (P ++ [o]) ++ rest, e.name = q := by
      rw [List.append_assoc, List.singleton_append]
      exact hex
    obtain ⟨h15, hsort, hnd, hscore, hfind, habs⟩ := hinv
    rcases hdisj with hl | hr
    · exact search_hit_aux q idx hcount rest (P ++ [o]) (searchStep q l o) heq' hstep
        (Or.inl (searchStep_keeps_hit o hsort hl)) hex'
    · by_cases hoq : o.name = q
      · have hsub : ∀ p ∈ l, p.1.name ∈ idx.map Opening.name := by
          intro p hp
          have hmem := List.mem_of_find?_eq_some (hfind p hp)
          rw [← heq]
          exact List.mem_map.mpr ⟨p.1, List.mem_append.mpr (Or.inl hmem), rfl⟩
        have hnew : ∀ p ∈ l, p.1.name ≠ q := by
          intro p hp
          exact hr p.1 (List.mem_of_find?_eq_some (hfind p hp))
        exact search_hit_aux q idx hcount rest (P ++ [o]) (searchStep q l o) heq' hstep
          (Or.inl (searchStep_arrival q idx hcount hsort hnd hscore hsub hnew hoq)) hex'
      · have hr' : ∀ e ∈ P ++ [o], e.name ≠ q := by
          intro e he
          rcases List.mem_append.mp he with h1 | h2
          · exact hr e h1
          · rcases List.mem_singleton.mp h2 with rfl
            exact hoq
        exact search_hit_aux q idx hcount rest (P ++ [o]) (searchStep q l o) heq' hstep
          (Or.inr hr') hex'

/-! ### Lemmas about index construction and lookups -/

theorem buildOpening_pgn {r : OpeningRecord} {o : Opening}
    (h : buildOpening r = some o) : o.pgn = some r.pgn := by
  unfold buildOpening at h
  cases hrp : replayPgn r.pgn with
  | none => rw [hrp] at h; cases h
  | some st =>
    rw [hrp] at h
    cases h
    rfl

theorem buildAll_pgn :
    ∀ {records : List OpeningRecord} {parsed : List Opening},
      buildAll records = some parsed → ∀ o ∈ parsed, ∃ p, o.pgn = some p
  | [], parsed, h => by
    cases h
    intro o ho
    exact absurd ho (List.not_mem_nil o)
  | r :: rs, parsed, h => by
    rw [buildAll] at h
    split at h
    · cases h
    · rename_i o1 hb
      split at h
      · cases h
      · rename_i os hba
        cases h
        intro o ho
        rcases List.mem_cons.mp ho with rfl | hmem
        · exact ⟨r.pgn, buildOpening_pgn hb⟩
        · exact buildAll_pgn hba o hmem

theorem buildOpenings_elim {records : List OpeningRecord} {idx : List Opening}
    (hb : buildOpenings records = some idx) :
    ∃ parsed, buildAll records = some parsed ∧
      idx = startingOpening :: emptyOpening :: parsed := by
  unfold buildOpenings at hb
  cases hba : buildAll records with
  | none => rw [hba] at hb; cases hb
  | some parsed =>
    rw [hba] at hb
    cases hb
    exact ⟨parsed, rfl, rfl⟩

theorem search_ok_elim {query : String} {idx : List Opening} {r : List Opening}
    (hr : search_opening_name idx query = .ok r) :
    r = (runSearch query idx).map Prod.fst := by
  unfold search_opening_name at hr
  split at hr
  · cases hr
  · injection hr with h
    exact h.symm

/-! ### The claims -/

/-- Claim C1 (corrected), counterexample: the token `Ke2` parses as
standard algebraic notation, yet at the starting position (where it is
illegal) the record replay aborts (`none`, the `expect("legal move")`
panic) instead of skipping the token and continuing — had it been
skipped, the replay would have returned the starting position, as the
replay of the empty move sequence does. -/
theorem claim_C1_cex :
    (parseSan "Ke2").isSome = true ∧ replayPgn "Ke2" = none ∧
      replayPgn "" = some defaultSetup :=
  ⟨by decide, by decide, by decide⟩

/-- Claim C1 (amended): during record parsing, a token that fails to
parse as standard algebraic notation is silently skipped and replay
continues with the remaining tokens; but a token that parses as SAN and
has no unique legal interpretation in the current position aborts
construction (the `expect("legal move")` panic), and a token with a
legal interpretation is applied. -/
theorem claim_C1 (st : Setup) (t : String) (ts : List String) :
    (parseSan t = none → replayTokens st (t :: ts) = replayTokens st ts) ∧
    (∀ tk, parseSan t = some tk → sanToMove st tk = none →
      replayTokens st (t :: ts) = none) ∧
    (∀ tk m, parseSan t = some tk → sanToMove st tk = some m →
      replayTokens st (t :: ts) = replayTokens (applyMv st m) ts) := by
  refine ⟨?_, ?_, ?_⟩
  · intro h
    rw [replayTokens, h]
  · intro tk h1 h2
    rw [replayTokens, h1]
    show (match sanToMove st tk with
      | some m => replayTokens (applyMv st m) ts
      | none => none) = none
    rw [h2]
  · intro tk m h1 h2
    rw [replayTokens, h1]
    show (match sanToMove st tk with
      | some m1 => replayTokens (applyMv st m1) ts
      | none => none) = replayTokens (applyMv st m) ts
    rw [h2]

/-- Witness for the claim-C1 theorem: `zz` fails to parse and is
skipped; `Ke2` parses but is illegal at the start, so replay aborts. -/
theorem claim_C1_witness :
    replayTokens defaultSetup ["zz"] = replayTokens defaultSetup [] ∧
      replayTokens defaultSetup ["Ke2"] = none :=
  ⟨(claim_C1 defaultSetup "zz" []).1 (by decide),
   (claim_C1 defaultSetup "Ke2" []).2.1
     (.normal ⟨.king, none, none, false, 12, none⟩) (by decide) (by decide)⟩

/-- Claim C2 (corrected), counterexample: the position produced for the
move sequence `e4 e5 Ke2` does not equal the position reached by
replaying only `e4 e5` — `Ke2` is legal there (the Bongcloud) and is
applied, not skipped. -/
theorem claim_C2_cex : replayPgn "e4 e5 Ke2" ≠ replayPgn "e4 e5" := by decide

/-- Claim C2 (amended): for a record whose move sequence is
`e4 e5 Ke2`, the Record Parser applies all three moves (Ke2 is legal)
and produces exactly the position of the repository's own test FEN
`rnbqkbnr/pppp1ppp/8/4p3/4P3/8/PPPPKPPP/RNBQ1BNR b kq - 1 2`; move
numbers in the raw pgn field are skipped as unparseable tokens. -/
theorem claim_C2 :
    replayPgn "e4 e5 Ke2" =
      (parseFen "rnbqkbnr/pppp1ppp/8/4p3/4P3/8/PPPPKPPP/RNBQ1BNR b kq - 1 2").toOption ∧
    (replayPgn "e4 e5 Ke2").isSome = true ∧
    replayPgn "1. e4 e5 2. Ke2" = replayPgn "e4 e5 Ke2" :=
  ⟨by decide, by decide, by decide⟩

/-- Claim C3: `search_opening_name` never returns two entries with the
same name; every returned opening is the first entry of its name in
index order, and at every stage of the iteration every pair in the
working list is the first index occurrence of its name — a later
duplicate is never inserted. -/
theorem claim_C3 (query : String) (idx : List Opening) :
    (∀ r, search_opening_name idx query = .ok r →
      (r.map Opening.name).Nodup ∧
      ∀ o ∈ r, idx.find? (fun e => decide (e.name = o.name)) = some o) ∧
    (∀ n, ∀ p ∈ runSearch query (idx.take n),
      (idx.take n).find? (fun e => decide (e.name = p.1.name)) = some p.1) := by
  constructor
  · intro r hr
    obtain ⟨h15, hsort, hnd, hscore, hfind, habs⟩ := SInv_runSearch query idx
    have hrdef := search_ok_elim hr
    constructor
    · rw [hrdef, List.map_map]
      exact hnd
    · intro o ho
      rw [hrdef] at ho
      obtain ⟨p, hp, rfl⟩ := List.mem_map.mp ho
      exact hfind p hp
  · intro n p hp
    exact (SInv_runSearch query (idx.take n)).2.2.2.2.1 p hp

/-- Witness for the claim-C3 theorem: an index with two entries named
`Aa`; the search returns only the first. -/
theorem claim_C3_witness :
    (([opA].map Opening.name).Nodup ∧
      ∀ o ∈ [opA], [opA, opC].find? (fun e => decide (e.name = o.name)) = some o) :=
  (claim_C3 "Aa" [opA, opC]).1 [opA] (by decide)

/-- Claim C4: `search_opening_name` returns at most 15 openings, in
non-increasing score order; the working list never exceeds 15 pairs at
any stage, and on a full list a new entry replaces the lowest-scoring
one exactly when its score strictly exceeds the current minimum. -/
theorem claim_C4 (query : String) (idx : List Opening) :
    (∀ r, search_opening_name idx query = .ok r →
      r.length ≤ 15 ∧
      List.Pairwise (fun x y : ℚ => y ≤ x) (r.map fun o => jaro_winkler query o.name)) ∧
    (∀ n, (runSearch query (idx.take n)).length ≤ 15) ∧
    (∀ (l : List (Opening × ℚ)) (o : Opening),
      (l.any fun m => decide (m.1.name = o.name)) = false → l.length = 15 →
      (jaro_winkler query o.name ≤ lastScore l → searchStep query l o = l) ∧
      (lastScore l < jaro_winkler query o.name →
        searchStep query l o = sortDesc (l.dropLast ++ [(o, jaro_winkler query o.name)]))) := by
  refine ⟨?_, ?_, ?_⟩
  · intro r hr
    obtain ⟨h15, hsort, hnd, hscore, hfind, habs⟩ := SInv_runSearch query idx
    have hrdef := search_ok_elim hr
    constructor
    · rw [hrdef, List.length_map]
      exact h15
    · rw [hrdef, List.map_map]
      have hmapeq : (runSearch query idx).map
            ((fun o => jaro_winkler query o.name) ∘ Prod.fst)
          = (runSearch query idx).map Prod.snd := by
        apply List.map_congr_left
        intro p hp
        exact (hscore p hp).symm
      rw [hmapeq]
      exact List.Pairwise.map Prod.snd (fun a b hab => hab) hsort
  · intro n
    exact (SInv_runSearch query (idx.take n)).1
  · intro l o hdup hl15
    constructor
    · intro hsc
      exact searchStep_full_skip hdup (by omega) hsc
    · intro hsc
      exact searchStep_full_evict hdup (by omega) hsc

/-- Witness for the claim-C4 theorem at a one-entry index. -/
theorem claim_C4_witness :
    [opA].length ≤ 15 ∧
      List.Pairwise (fun x y : ℚ => y ≤ x)
        ([opA].map fun o => jaro_winkler "Aa" o.name) :=
  (claim_C4 "Aa" [opA]).1 [opA] (by decide)

/-- Claim C5: `get_opening_from_name` returns the pgn of the first
entry whose name equals the query exactly, fails with
`Error::NoOpeningFound` when no entry matches, and panics (`none`)
exactly when the query names one of the two synthetic entries — the
only entries without a pgn. -/
theorem claim_C5 (records : List OpeningRecord) (idx : List Opening) (q : String)
    (hb : buildOpenings records = some idx) :
    (idx.find? (fun o => decide (o.name = q)) = none →
      get_opening_from_name idx q = some (.error .NoOpeningFound)) ∧
    (∀ o, idx.find? (fun o => decide (o.name = q)) = some o →
      ∀ p, o.pgn = some p → get_opening_from_name idx q = some (.ok p)) ∧
    (get_opening_from_name idx q = none ↔
      q = "Starting Position" ∨ q = "Empty Board") := by
  obtain ⟨parsed, hba, rfl⟩ := buildOpenings_elim hb
  refine ⟨?_, ?_, ?_⟩
  · intro hf
    unfold get_opening_from_name
    rw [hf]
  · intro o hf p hp
    unfold get_opening_from_name
    rw [hf]
    show (match o.pgn with
      | some p1 => some (Except.ok p1)
      | none => none) = some (Except.ok p)
    rw [hp]
  · constructor
    · intro hnone
      unfold get_opening_from_name at hnone
      cases hf : (startingOpening :: emptyOpening :: parsed).find?
          (fun o => decide (o.name = q)) with
      | none =>
        rw [hf] at hnone
        cases hnone
      | some o =>
        rw [hf] at hnone
        replace hnone : (match o.pgn with
          | some p => some (Except.ok p)
          | none => none) = none := hnone
        cases hp : o.pgn with
        | some p =>
          rw [hp] at hnone
          cases hnone
        | none =>
          have hpred := List.find?_some hf
          have hname : o.name = q := of_decide_eq_true hpred
          have hmem := List.mem_of_find?_eq_some hf
          rcases List.mem_cons.mp hmem with rfl | hmem2
          · left
            rw [← hname]
            rfl
          rcases List.mem_cons.mp hmem2 with rfl | hmem3
          · right
            rw [← hname]
            rfl
          · obtain ⟨p, hp2⟩ := buildAll_pgn hba o hmem3
            rw [hp] at hp2
            cases hp2
    · intro hq
      rcases hq with rfl | rfl
      · rfl
      · rfl

/-- Witness for the claim-C5 theorem: on the index built from no
records, looking up the synthetic name panics. -/
theorem claim_C5_witness :
    get_opening_from_name [startingOpening, emptyOpening] "Starting Position" = none :=
  ((claim_C5 [] [startingOpening, emptyOpening] "Starting Position" rfl).2.2).mpr
    (Or.inl rfl)

/-- Claim C6: `get_opening_from_setup` returns the name of the first
entry whose setup is structurally equal to the query and fails with
`Error::NoOpeningFound` otherwise; because the synthetic entries are
prepended, the starting position maps to `Starting Position` and the
empty board to `Empty Board`. -/
theorem claim_C6 (records : List OpeningRecord) (idx : List Opening)
    (hb : buildOpenings records = some idx) :
    get_opening_from_setup idx defaultSetup = .ok "Starting Position" ∧
    get_opening_from_setup idx emptySetup = .ok "Empty Board" ∧
    (∀ st, (∀ o ∈ idx, o.setup ≠ st) →
      get_opening_from_setup idx st = .error .NoOpeningFound) ∧
    (∀ st o, idx.find? (fun o => decide (o.setup = st)) = some o →
      get_opening_from_setup idx st = .ok o.name) := by
  obtain ⟨parsed, hba, rfl⟩ := buildOpenings_elim hb
  refine ⟨?_, ?_, ?_, ?_⟩
  · unfold get_opening_from_setup
    rw [List.find?_cons_of_pos _ (by decide)]
    rfl
  · unfold get_opening_from_setup
    rw [List.find?_cons_of_neg _ (by decide), List.find?_cons_of_pos _ (by decide)]
    rfl
  · intro st hall
    unfold get_opening_from_setup
    rw [List.find?_eq_none.mpr fun o ho => by simpa using hall o ho]
  · intro st o hf
    unfold get_opening_from_setup
    rw [hf]

/-- Witness for the claim-C6 theorem on the index built from no
records. -/
theorem claim_C6_witness :
    get_opening_from_setup [startingOpening, emptyOpening] defaultSetup
      = .ok "Starting Position" :=
  (claim_C6 [] [startingOpening, emptyOpening] rfl).1

/-- Claim C7: `get_opening_from_fen` first parses the FEN; a parse
failure is returned to the caller unchanged without consulting the
index, and on success the result is exactly
`get_opening_from_setup` of the parsed position. -/
theorem claim_C7 (openings : List Opening) (fen : String) :
    (∀ e, parseFen fen = .error e → get_opening_from_fen openings fen = .error e) ∧
    (∀ st, parseFen fen = .ok st →
      get_opening_from_fen openings fen = get_opening_from_setup openings st) := by
  constructor
  · intro e he
    unfold get_opening_from_fen
    rw [he]
  · intro st hst
    unfold get_opening_from_fen
    rw [hst]

/-- Witness for the claim-C7 theorem: a malformed FEN is propagated as
the parse error. -/
theorem claim_C7_witness :
    get_opening_from_fen [] "not a fen" = .error .FenError :=
  (claim_C7 [] "not a fen").1 .FenError (by decide)

/-- Claim C8: `search_opening_name` fails with `Error::NoMatchFound`
exactly when the index is empty; on any non-empty index the result is a
non-empty list for every query. -/
theorem claim_C8 (idx : List Opening) (query : String) :
    (search_opening_name idx query = .error .NoMatchFound ↔ idx = []) ∧
    (idx ≠ [] → ∃ r, search_opening_name idx query = .ok r ∧ r ≠ []) := by
  constructor
  · constructor
    · intro he
      by_contra hidx
      have hnn := runSearch_ne_nil query hidx
      unfold search_opening_name at he
      rw [if_neg (by simpa using hnn)] at he
      cases he
    · rintro rfl
      rfl
  · intro hidx
    have hnn := runSearch_ne_nil query hidx
    refine ⟨(runSearch query idx).map Prod.fst, ?_, ?_⟩
    · unfold search_opening_name
      rw [if_neg (by simpa using hnn)]
    · simpa using hnn

/-- Witness for the claim-C8 theorem at a one-entry index. -/
theorem claim_C8_witness :
    ∃ r, search_opening_name [opA] "Zz" = .ok r ∧ r ≠ [] :=
  (claim_C8 [opA] "Zz").2 (by decide)

/-- Claim C9: every similarity score lies in the closed interval
[0, 1], identical strings score exactly 1; and whenever the query
equals some entry's name and fewer than 15 distinct names score
higher-or-equal, the search result contains an entry of that name with
score 1. -/
theorem claim_C9 :
    (∀ a b : String, 0 ≤ jaro_winkler a b ∧ jaro_winkler a b ≤ 1) ∧
    (∀ a : String, jaro_winkler a a = 1) ∧
    (∀ (query : String) (idx : List Opening),
      (∃ e ∈ idx, e.name = query) →
      ((idx.map Opening.name).dedup.filter fun n =>
        decide (1 ≤ jaro_winkler query n)).length < 15 →
      ∃ r, search_opening_name idx query = .ok r ∧
        ∃ o ∈ r, o.name = query ∧ jaro_winkler query o.name = 1) := by
  refine ⟨jaro_winkler_bounds, jaro_winkler_self, ?_⟩
  intro query idx hex hcount
  have hmain := search_hit_aux query idx hcount idx [] [] rfl (SInv_nil query)
    (Or.inr fun e he => absurd he (List.not_mem_nil e)) (by simpa using hex)
  obtain ⟨p, hp, hpn, hps⟩ := hmain
  have hp' : p ∈ runSearch query idx := hp
  have hnn : runSearch query idx ≠ [] := by
    intro h0
    rw [h0] at hp'
    exact absurd hp' (List.not_mem_nil p)
  refine ⟨(runSearch query idx).map Prod.fst, ?_, ?_⟩
  · unfold search_opening_name
    rw [if_neg (by simpa using hnn)]
  · refine ⟨p.1, List.mem_map.mpr ⟨p, hp', rfl⟩, hpn, ?_⟩
    rw [hpn]
    exact jaro_winkler_self query

/-- Witness for the claim-C9 theorem: searching the exact name `Aa` in
a one-entry index returns that entry with score 1. -/
theorem claim_C9_witness :
    ∃ r, search_opening_name [opA] "Aa" = .ok r ∧
      ∃ o ∈ r, o.name = "Aa" ∧ jaro_winkler "Aa" o.name = 1 :=
  claim_C9.2.2 "Aa" [opA] ⟨opA, by decide, rfl⟩ (by simp [opA, jaro_winkler_self])

/-- Claim C10: the similarity computation never produces NaN — the
`f64`-style evaluation `jaro_winklerF` always yields the real (rational)
score — so `partial_cmp` on any two scores is always `Some` and the
`unwrap` in the sort comparator of `search_opening_name` cannot
panic. -/
theorem claim_C10 (query n1 n2 : String) :
    jaro_winklerF query n1 = some (jaro_winkler query n1) ∧
    (pcmpF (jaro_winklerF query n1) (jaro_winklerF query n2)).isSome = true := by
  refine ⟨jaro_winklerF_eq query n1, ?_⟩
  rw [jaro_winklerF_eq query n1, jaro_winklerF_eq query n2]
  rfl

end EnCroissant
